import Mathlib

/-!
Verification of the ordered-list position engine of the nexell backend
(`src/services/taskService.ts`, with its boundary validation in
`taskValidators.updateOrder` and the `updateTaskOrder` controller).

The engine maintains, per `(owner, status)` partition, an integer
`orderIndex` on each task.  This file gives a shallow embedding of:
  - the data model (`TaskRec`, a Mongo task document restricted to the
    fields the engine reads or writes);
  - the position allocator inside `TaskService.createTask`;
  - the move executor `TaskService.updateTaskOrder`, including its
    transaction (any storage failure aborts with no partial effect —
    modelled by explicit fault flags on each storage write);
  - the rebalancer `TaskService.rebalanceTaskOrder`, whose partition load
    is `find(...).sort({orderIndex: 1})`: MongoDB leaves the relative
    order of equal keys unspecified, so the load is modelled as a
    relation (`IsSortedLoad`) rather than a function;
  - the express-validator boundary rules for the update-order route.
-/

namespace Nexell

/-- Task identifier (Mongo `_id`), abstracted to a natural number. -/
abbrev TaskId := Nat

/-- User identifier (`createdBy`), abstracted to a natural number. -/
abbrev UserId := Nat

/-- The closed `TaskStatus` enumeration from `src/models/Task.ts`. -/
inductive TaskStatus where
  | todo
  | inProgress
  | review
  | done
  | archived
deriving DecidableEq, Repr

/-- A task document restricted to the fields the position engine touches:
`_id`, `createdBy`, `status`, `orderIndex`, and the `createdAt` timestamp
(present on every document via `timestamps: true`; the rebalancer's query
does not sort by it). -/
structure TaskRec where
  id : TaskId
  createdBy : UserId
  status : TaskStatus
  orderIndex : Int
  createdAt : Nat
deriving DecidableEq, Repr

/-- The task collection, as a list of documents. -/
abbrev Store := List TaskRec

/-- The constant spacing between canonical positions (`SPACING = 1000`,
also the literal `1000` used by `createTask` and `updateTaskOrder`). -/
def SPACING : Int := 1000

/-- Tasks of the `(owner, status)` partition: the result set of a query
filtered by `createdBy` and `status`. -/
def partitionOf (db : Store) (u : UserId) (st : TaskStatus) : List TaskRec :=
  db.filter (fun t => decide (t.createdBy = u ∧ t.status = st))

/-- The positions (`orderIndex` values) of a partition. -/
def partitionPositions (db : Store) (u : UserId) (st : TaskStatus) : List Int :=
  (partitionOf db u st).map (fun t => t.orderIndex)

/-- Value of `orderIndex` of the document with the given id (0 when the id
is absent); the observation used to compare stores per item. -/
def posD (db : Store) (i : TaskId) : Int :=
  match db.find? (fun t => t.id == i) with
  | some t => t.orderIndex
  | none => 0

/-! ## Position allocator (`TaskService.createTask`, lines 49–66)

`createTask` runs `Task.findOne({status, createdBy}).sort({orderIndex: -1})`
— i.e. it reads the maximum existing `orderIndex` of the partition — and
stores the new task with `max + 1000`, or `1000` when the partition is
empty. -/

/-- Maximum of a list of positions, `none` on the empty list (the result
of `findOne` with a descending sort on `orderIndex`). -/
def listMax : List Int → Option Int
  | [] => none
  | p :: ps =>
    match listMax ps with
    | none => some p
    | some m => some (max p m)

/-- The `orderIndex` computed for a newly created task:
`maxOrderTask ? maxOrderTask.orderIndex + 1000 : 1000`. -/
def allocOrderIndex (db : Store) (u : UserId) (st : TaskStatus) : Int :=
  match listMax (partitionPositions db u st) with
  | some m => m + SPACING
  | none => SPACING

/-- Creation of a task (fields irrelevant to ordering omitted): the new
document is inserted with the allocated `orderIndex`.  `st` is the
resolved status (`taskInput.status || TaskStatus.TODO`). -/
def createTask (db : Store) (u : UserId) (st : TaskStatus) (newId : TaskId)
    (now : Nat) : Store × TaskRec :=
  let t : TaskRec := ⟨newId, u, st, allocOrderIndex db u st, now⟩
  (db ++ [t], t)

/-! ## Move executor (`TaskService.updateTaskOrder`, lines 147–236)

The three `updateMany` filters and the final `findByIdAndUpdate`, each as
a per-document transformation applied to the whole collection (an
`updateMany` touches exactly the documents matching its filter). -/

/-- Destination shift of a cross-group move: `{createdBy: userId, status:
newStatus, orderIndex: {$gte: newOrderIndex}}` gets `$inc: 1000`. -/
def destShiftItem (u : UserId) (newStatus : TaskStatus) (newPos : Int)
    (t : TaskRec) : TaskRec :=
  if t.createdBy = u ∧ t.status = newStatus ∧ newPos ≤ t.orderIndex then
    { t with orderIndex := t.orderIndex + SPACING }
  else t

/-- Source shift of a cross-group move: `{createdBy: userId, status:
oldStatus, orderIndex: {$gt: oldOrderIndex}}` gets `$inc: -1000`. -/
def srcShiftItem (u : UserId) (oldStatus : TaskStatus) (oldPos : Int)
    (t : TaskRec) : TaskRec :=
  if t.createdBy = u ∧ t.status = oldStatus ∧ oldPos < t.orderIndex then
    { t with orderIndex := t.orderIndex - SPACING }
  else t

/-- Same-group shift when moving up (`newOrderIndex < oldOrderIndex`):
`orderIndex: {$gte: newOrderIndex, $lt: oldOrderIndex}` gets `$inc: 1000`. -/
def upShiftItem (u : UserId) (st : TaskStatus) (newPos oldPos : Int)
    (t : TaskRec) : TaskRec :=
  if t.createdBy = u ∧ t.status = st ∧ newPos ≤ t.orderIndex ∧ t.orderIndex < oldPos then
    { t with orderIndex := t.orderIndex + SPACING }
  else t

/-- Same-group shift when moving down (`newOrderIndex > oldOrderIndex`):
`orderIndex: {$gt: oldOrderIndex, $lte: newOrderIndex}` gets `$inc: -1000`. -/
def downShiftItem (u : UserId) (st : TaskStatus) (oldPos newPos : Int)
    (t : TaskRec) : TaskRec :=
  if t.createdBy = u ∧ t.status = st ∧ oldPos < t.orderIndex ∧ t.orderIndex ≤ newPos then
    { t with orderIndex := t.orderIndex - SPACING }
  else t

/-- The final `findByIdAndUpdate(taskId, {status: newStatus, orderIndex:
newOrderIndex})`. -/
def finalSetItem (tid : TaskId) (newStatus : TaskStatus) (newPos : Int)
    (t : TaskRec) : TaskRec :=
  if t.id = tid then { t with status := newStatus, orderIndex := newPos } else t

/-- Errors of the move executor: `NotFoundError` (404 before the
transaction starts) and `StorageError` (a storage operation inside the
transaction threw). -/
inductive MoveErr where
  | notFound
  | storage
deriving DecidableEq, Repr

/-- Fault profile for the storage writes inside the move transaction: a
`true` flag makes the corresponding write throw.  `failShiftA` is the
first `updateMany` of the executed branch, `failShiftB` the second
`updateMany` (cross-group only), `failFinal` the `findByIdAndUpdate`. -/
structure Faults where
  failShiftA : Bool
  failShiftB : Bool
  failFinal : Bool
deriving DecidableEq, Repr

/-- One storage write inside the session: it either throws (fault flag
set) or applies its per-document transformation. -/
def tryOp (fail : Bool) (s : Store) (f : TaskRec → TaskRec) :
    Except MoveErr Store :=
  if fail then .error .storage else .ok (s.map f)

/-- `TaskService.updateTaskOrder` with fault injection.  It first resolves
`Task.findOne({_id: taskId, createdBy: userId})` (404 when absent), then
runs the branch of shifts plus the final update inside the transaction;
on any thrown error the transaction is aborted, so the pre-call store is
returned unchanged alongside the error. -/
def updateTaskOrderF (fl : Faults) (db : Store) (tid : TaskId) (u : UserId)
    (newStatus : TaskStatus) (newPos : Int) : Store × Except MoveErr TaskRec :=
  match db.find? (fun t => decide (t.id = tid ∧ t.createdBy = u)) with
  | none => (db, .error .notFound)
  | some task =>
    let res : Except MoveErr Store :=
      if task.status ≠ newStatus then
        (tryOp fl.failShiftA db (destShiftItem u newStatus newPos)).bind fun s1 =>
        (tryOp fl.failShiftB s1 (srcShiftItem u task.status task.orderIndex)).bind fun s2 =>
        tryOp fl.failFinal s2 (finalSetItem tid newStatus newPos)
      else if newPos < task.orderIndex then
        (tryOp fl.failShiftA db (upShiftItem u newStatus newPos task.orderIndex)).bind fun s1 =>
        tryOp fl.failFinal s1 (finalSetItem tid newStatus newPos)
      else if task.orderIndex < newPos then
        (tryOp fl.failShiftA db (downShiftItem u newStatus task.orderIndex newPos)).bind fun s1 =>
        tryOp fl.failFinal s1 (finalSetItem tid newStatus newPos)
      else
        tryOp fl.failFinal db (finalSetItem tid newStatus newPos)
    match res with
    | .ok s => (s, .ok { task with status := newStatus, orderIndex := newPos })
    | .error e => (db, .error e)

/-- The move executor without storage faults (the normal path). -/
def updateTaskOrder (db : Store) (tid : TaskId) (u : UserId)
    (newStatus : TaskStatus) (newPos : Int) : Store × Except MoveErr TaskRec :=
  updateTaskOrderF ⟨false, false, false⟩ db tid u newStatus newPos

/-! ## Rebalancer (`TaskService.rebalanceTaskOrder`, lines 242–288)

For one `(owner, status)` partition the code loads
`Task.find({createdBy, status}).sort({orderIndex: 1})` and then runs
`findByIdAndUpdate(tasks[i]._id, {orderIndex: (i + 1) * SPACING})` for
each loaded task.  MongoDB does not specify the relative order of
documents with equal `orderIndex` under this single-key sort, so the
loaded list is any `IsSortedLoad` witness. -/

/-- Comparison of tasks by position, the key of the rebalancer's sort. -/
def taskLE (a b : TaskRec) : Prop := a.orderIndex ≤ b.orderIndex

/-- Strict comparison of tasks by position. -/
def taskLT (a b : TaskRec) : Prop := a.orderIndex < b.orderIndex

instance : DecidableRel taskLE := fun a b =>
  inferInstanceAs (Decidable (a.orderIndex ≤ b.orderIndex))

instance : DecidableRel taskLT := fun a b =>
  inferInstanceAs (Decidable (a.orderIndex < b.orderIndex))

instance : IsAntisymm TaskRec taskLT :=
  ⟨fun _ _ h h2 => absurd (lt_trans h h2) (lt_irrefl _)⟩

/-- Validity of a list as the result of `find({createdBy, status}).sort(
{orderIndex: 1})`: a permutation of the partition, non-decreasing in
`orderIndex`.  Ties may come back in any order. -/
def IsSortedLoad (db : Store) (u : UserId) (st : TaskStatus)
    (l : List TaskRec) : Prop :=
  l.Perm (partitionOf db u st) ∧ l.Pairwise taskLE

instance (db : Store) (u : UserId) (st : TaskStatus) (l : List TaskRec) :
    Decidable (IsSortedLoad db u st l) :=
  inferInstanceAs (Decidable (_ ∧ _))

/-- One `findByIdAndUpdate(id, {orderIndex: p})` over the collection. -/
def updateById (s : Store) (i : TaskId) (p : Int) : Store :=
  s.map fun t => if t.id = i then { t with orderIndex := p } else t

/-- Sequential application of the rebalancer's per-task writes. -/
def applyAssignments (db : Store) (asg : List (TaskId × Int)) : Store :=
  asg.foldl (fun s a => updateById s a.1 a.2) db

/-- The assignment list built by the rebalancer's loop: the i-th loaded
task (0-based) receives `(i + 1) * SPACING`; `assignFrom k` is the loop
suffix whose next multiplier is `k`. -/
def assignFrom (k : Int) : List TaskRec → List (TaskId × Int)
  | [] => []
  | t :: ts => (t.id, k * SPACING) :: assignFrom (k + 1) ts

/-- The rebalancer applied to one partition, given the loaded list `l`. -/
def rebalanceApply (db : Store) (l : List TaskRec) : Store :=
  applyAssignments db (assignFrom 1 l)

/-! ## Boundary validation (`taskValidators.updateOrder` and the
`updateTaskOrder` controller)

`check('status').notEmpty().isIn(Object.values(TaskStatus))` and
`check('orderIndex').notEmpty().isNumeric().toInt()`; on any validation
error the controller throws a 400 `AppError` before calling the service.
Raw request fields are modelled as character lists. -/

/-- Decoding of the raw `status` field against the closed enumeration
(`isIn(Object.values(TaskStatus))`); `none` on any other value,
including the empty string (`notEmpty`). -/
def taskStatusOfChars (s : List Char) : Option TaskStatus :=
  if s = ['t', 'o', 'd', 'o'] then some .todo
  else if s = ['i', 'n', '-', 'p', 'r', 'o', 'g', 'r', 'e', 's', 's'] then some .inProgress
  else if s = ['r', 'e', 'v', 'i', 'e', 'w'] then some .review
  else if s = ['d', 'o', 'n', 'e'] then some .done
  else if s = ['a', 'r', 'c', 'h', 'i', 'v', 'e', 'd'] then some .archived
  else none

/-- The body of validator.js `isNumeric` without symbols:
`([0-9]*[.])?[0-9]+` — optional integer part followed by a dot, then a
non-empty run of digits; or a plain non-empty run of digits. -/
def numericBody (cs : List Char) : Bool :=
  match cs.dropWhile Char.isDigit with
  | [] => !cs.isEmpty
  | c :: rest => c == '.' && (!rest.isEmpty && rest.all Char.isDigit)

/-- validator.js `isNumeric` with default options, the check applied to
`orderIndex`: `^[+-]?([0-9]*[.])?[0-9]+$`.  Note that a leading minus is
accepted, and `Infinity`, `NaN` or the empty string are rejected. -/
def isNumericChars (cs : List Char) : Bool :=
  match cs with
  | '+' :: rest => numericBody rest
  | '-' :: rest => numericBody rest
  | _ => numericBody cs

/-- Digit value of a character. -/
def digitVal (c : Char) : Int := Int.ofNat (c.toNat - '0'.toNat)

/-- Accumulating decimal parse of a digit run. -/
def parseDigits (acc : Int) : List Char → Int
  | [] => acc
  | c :: rest => parseDigits (acc * 10 + digitVal c) rest

/-- JS `parseInt` on the sanitised field (`toInt`): optional sign, then
the leading run of digits; `none` models `NaN` (no leading digit — only
reachable here for fractions like `.5`, which no claim exercises). -/
def parseIntChars (cs : List Char) : Option Int :=
  let signed : Bool × List Char :=
    match cs with
    | '-' :: rest => (true, rest)
    | '+' :: rest => (false, rest)
    | _ => (false, cs)
  let digits := signed.2.takeWhile Char.isDigit
  if digits.isEmpty then none
  else some (if signed.1 then -(parseDigits 0 digits) else parseDigits 0 digits)

/-- Errors visible at the route boundary. -/
inductive ApiErr where
  | invalidArgument
  | notFound
  | storage
deriving DecidableEq, Repr

/-- Mapping of service errors onto boundary errors. -/
def toApiErr : MoveErr → ApiErr
  | .notFound => .notFound
  | .storage => .storage

/-- The update-order route: validation first (400 before any state
change), then `TaskService.updateTaskOrder` with the decoded status and
the parsed integer.  The `NaN` corner (numeric raw value with no leading
digit) is not representable over `Int` and no claim exercises it; it is
mapped to the rejecting branch. -/
def updateTaskOrderEndpoint (db : Store) (tid : TaskId) (u : UserId)
    (statusRaw orderRaw : List Char) : Store × Except ApiErr TaskRec :=
  match taskStatusOfChars statusRaw, isNumericChars orderRaw, parseIntChars orderRaw with
  | some st, true, some n =>
    let r := updateTaskOrder db tid u st n
    (r.1, r.2.mapError toApiErr)
  | _, _, _ => (db, .error .invalidArgument)

/-! ## Claim-side descriptions

Per-item descriptions of the move written from the words of the spec
(§4.2), to be compared with the transactional composite above. -/

/-- Spec description of a cross-group move, per item: the moved item gets
the new group and position; destination-partition items at or after the
target slot move up by `SPACING`; source-partition items after the old
slot move down by `SPACING`; nothing else changes. -/
def crossMoveSpecItem (tid : TaskId) (u : UserId) (gold gnew : TaskStatus)
    (pold pnew : Int) (x : TaskRec) : TaskRec :=
  if x.id = tid then { x with status := gnew, orderIndex := pnew }
  else if x.createdBy = u ∧ x.status = gnew ∧ pnew ≤ x.orderIndex then
    { x with orderIndex := x.orderIndex + SPACING }
  else if x.createdBy = u ∧ x.status = gold ∧ pold < x.orderIndex then
    { x with orderIndex := x.orderIndex - SPACING }
  else x

/-- Spec description of a same-group reorder, per item: the moved item
gets the new position (group unchanged); when moving up, other partition
items in `[pnew, pold)` move up by `SPACING`; when moving down, other
partition items in `(pold, pnew]` move down by `SPACING`; when the
position is unchanged, nothing else changes. -/
def sameGroupMoveSpecItem (tid : TaskId) (u : UserId) (g : TaskStatus)
    (pold pnew : Int) (x : TaskRec) : TaskRec :=
  if x.id = tid then { x with status := g, orderIndex := pnew }
  else if pnew < pold ∧ x.createdBy = u ∧ x.status = g ∧
      pnew ≤ x.orderIndex ∧ x.orderIndex < pold then
    { x with orderIndex := x.orderIndex + SPACING }
  else if pold < pnew ∧ x.createdBy = u ∧ x.status = g ∧
      pold < x.orderIndex ∧ x.orderIndex ≤ pnew then
    { x with orderIndex := x.orderIndex - SPACING }
  else x

/-- Position-level view of the destination shift of a cross-group move. -/
def destShiftPos (pnew p : Int) : Int :=
  if pnew ≤ p then p + SPACING else p

/-- Position-level view of the same-group shifts. -/
def sgShiftPos (pold pnew p : Int) : Int :=
  if pnew < pold ∧ pnew ≤ p ∧ p < pold then p + SPACING
  else if pold < pnew ∧ pold < p ∧ p ≤ pnew then p - SPACING
  else p

/-- The canonical position list `[k*SPACING, (k+1)*SPACING, …]` of the
given length. -/
def canonicalFrom (k : Int) : Nat → List Int
  | 0 => []
  | n + 1 => k * SPACING :: canonicalFrom (k + 1) n

/-- The rebalancer's loaded list with its new positions written in:
elements in load order, positions `k*SPACING, (k+1)*SPACING, …`. -/
def assignedList (k : Int) : List TaskRec → List TaskRec
  | [] => []
  | t :: ts => { t with orderIndex := k * SPACING } :: assignedList (k + 1) ts

/-- Lookup view of a finished sequence of `findByIdAndUpdate` writes. -/
def applyFun (asg : List (TaskId × Int)) (t : TaskRec) : TaskRec :=
  match asg.lookup t.id with
  | some p => { t with orderIndex := p }
  | none => t

/-! ## Helper lemmas -/

/-- Documents with equal `_id` in a collection with unique ids are equal. -/
theorem eq_of_mem_of_id_eq {db : Store} (hids : (db.map TaskRec.id).Nodup)
    {x y : TaskRec} (hx : x ∈ db) (hy : y ∈ db) (h : x.id = y.id) : x = y :=
  List.inj_on_of_nodup_map hids hx hy h

/-- Specification of `listMax` on non-empty lists. -/
theorem listMax_spec (l : List Int) (hne : l ≠ []) :
    ∃ m, listMax l = some m ∧ m ∈ l ∧ ∀ p ∈ l, p ≤ m := by
  induction l with
  | nil => exact absurd rfl hne
  | cons p ps ih =>
    rcases eq_or_ne ps [] with hnil | hps
    · subst hnil
      exact ⟨p, rfl, by simp, by simp⟩
    · obtain ⟨m, hm, hmem, hb⟩ := ih hps
      refine ⟨max p m, by simp [listMax, hm], ?_, ?_⟩
      · rcases max_choice p m with h | h <;> simp [h, hmem]
      · intro x hx
        rcases List.mem_cons.mp hx with rfl | hx
        · exact le_max_left _ _
        · exact le_trans (hb x hx) (le_max_right _ _)

/-! ## C5: allocator contract -/

/-- C5.  The position assigned during task creation is `max + SPACING`
over the `(owner, status)` partition when it is non-empty and `SPACING`
when it is empty; the created document carries exactly that position; on
an initially empty partition two successive creations allocate `SPACING`
and then `2 * SPACING`. -/
theorem allocator_contract (db : Store) (u : UserId) (st : TaskStatus)
    (i1 i2 : TaskId) (c1 c2 : Nat) :
    (partitionOf db u st = [] → allocOrderIndex db u st = SPACING)
    ∧ (partitionOf db u st ≠ [] →
        ∃ m, m ∈ partitionPositions db u st
          ∧ (∀ p ∈ partitionPositions db u st, p ≤ m)
          ∧ allocOrderIndex db u st = m + SPACING)
    ∧ ((createTask db u st i1 c1).2.orderIndex = allocOrderIndex db u st
        ∧ (createTask db u st i1 c1).2 ∈ (createTask db u st i1 c1).1)
    ∧ (partitionOf db u st = [] →
        (createTask db u st i1 c1).2.orderIndex = SPACING
        ∧ (createTask ((createTask db u st i1 c1).1) u st i2 c2).2.orderIndex
            = 2 * SPACING) := by
  have halloc_empty : partitionOf db u st = [] → allocOrderIndex db u st = SPACING := by
    intro h
    simp [allocOrderIndex, partitionPositions, h, listMax]
  refine ⟨halloc_empty, ?_, ⟨rfl, by simp [createTask]⟩, ?_⟩
  · intro hne
    have hne2 : partitionPositions db u st ≠ [] := by
      simpa [partitionPositions] using hne
    obtain ⟨m, hm, hmem, hb⟩ := listMax_spec _ hne2
    exact ⟨m, hmem, hb, by simp [allocOrderIndex, hm]⟩
  · intro h
    have h1 : (createTask db u st i1 c1).2.orderIndex = SPACING := halloc_empty h
    refine ⟨h1, ?_⟩
    have hpart : partitionOf ((createTask db u st i1 c1).1) u st
        = [(createTask db u st i1 c1).2] := by
      simp only [createTask, partitionOf] at h ⊢
      rw [List.filter_append, h]
      simp
    have h2 : allocOrderIndex ((createTask db u st i1 c1).1) u st
        = (createTask db u st i1 c1).2.orderIndex + SPACING := by
      unfold allocOrderIndex partitionPositions
      rw [hpart]
      simp [listMax]
    show allocOrderIndex ((createTask db u st i1 c1).1) u st = 2 * SPACING
    rw [h2, h1]
    ring

/-- Witness for C5: the empty partition allocates `1000` then `2000`,
and a partition holding position `1000` allocates `1000 + SPACING`. -/
theorem allocator_contract_witness :
    allocOrderIndex ([] : Store) 1 .todo = SPACING
    ∧ (createTask ([] : Store) 1 .todo 7 0).2.orderIndex = SPACING
    ∧ (createTask ((createTask ([] : Store) 1 .todo 7 0).1) 1 .todo 8 1).2.orderIndex
        = 2 * SPACING
    ∧ ∃ m, m ∈ partitionPositions [⟨5, 1, .todo, 1000, 0⟩] 1 .todo
        ∧ (∀ p ∈ partitionPositions [⟨5, 1, .todo, 1000, 0⟩] 1 .todo, p ≤ m)
        ∧ allocOrderIndex [⟨5, 1, .todo, 1000, 0⟩] 1 .todo = m + SPACING := by
  obtain ⟨h1, -, -, h4⟩ := allocator_contract ([] : Store) 1 .todo 7 8 0 1
  obtain ⟨-, h2, -, -⟩ := allocator_contract [⟨5, 1, .todo, 1000, 0⟩] 1 .todo 7 8 0 1
  exact ⟨h1 rfl, (h4 rfl).1, (h4 rfl).2, h2 (by decide)⟩

/-! ## C7: move error contract -/

/-- C7.  A move whose `taskId` does not resolve to a task of the calling
user fails with `NotFoundError` and leaves the store unchanged; whenever
the result is an error the transaction is aborted and the store is
exactly the pre-call store; and every storage write the transaction
executes surfaces its failure as `StorageError`: the final
`findByIdAndUpdate` in every branch, the first `updateMany` whenever a
shift runs (cross-group, or same-group with a changed position), and the
second `updateMany` in the cross-group branch. -/
theorem move_error_contract (fl : Faults) (db : Store) (tid : TaskId)
    (u : UserId) (st : TaskStatus) (p : Int) :
    (db.find? (fun t => decide (t.id = tid ∧ t.createdBy = u)) = none →
      updateTaskOrderF fl db tid u st p = (db, .error .notFound))
    ∧ (∀ e, (updateTaskOrderF fl db tid u st p).2 = .error e →
        (updateTaskOrderF fl db tid u st p).1 = db)
    ∧ (∀ task,
        db.find? (fun t => decide (t.id = tid ∧ t.createdBy = u)) = some task →
        fl.failFinal = true →
        updateTaskOrderF fl db tid u st p = (db, .error .storage))
    ∧ (∀ task,
        db.find? (fun t => decide (t.id = tid ∧ t.createdBy = u)) = some task →
        fl.failShiftA = true → (task.status ≠ st ∨ p ≠ task.orderIndex) →
        updateTaskOrderF fl db tid u st p = (db, .error .storage))
    ∧ (∀ task,
        db.find? (fun t => decide (t.id = tid ∧ t.createdBy = u)) = some task →
        fl.failShiftB = true → task.status ≠ st →
        updateTaskOrderF fl db tid u st p = (db, .error .storage)) := by
  obtain ⟨a, b, c⟩ := fl
  refine ⟨fun h => by unfold updateTaskOrderF; rw [h], ?_, ?_, ?_, ?_⟩
  · intro e
    unfold updateTaskOrderF
    cases hf : db.find? (fun t => decide (t.id = tid ∧ t.createdBy = u)) with
    | none => intro _; rfl
    | some task =>
      cases a <;> cases b <;> cases c <;>
        simp [tryOp, Except.bind] <;> split_ifs <;> simp
  · intro task hf hc
    subst hc
    unfold updateTaskOrderF
    rw [hf]
    cases a <;> cases b <;> simp [tryOp, Except.bind]
  · intro task hf ha hcond
    subst ha
    unfold updateTaskOrderF
    rw [hf]
    rcases hcond with hst | hp
    · cases b <;> cases c <;> simp [tryOp, Except.bind, hst]
    · by_cases hst : task.status ≠ st
      · cases b <;> cases c <;> simp [tryOp, Except.bind, hst]
      · have hst2 : task.status = st := not_not.mp hst
        rcases lt_or_gt_of_ne hp with h | h
        · have h2 : ¬task.orderIndex < p := by omega
          cases b <;> cases c <;> simp [tryOp, Except.bind, hst2, h, h2]
        · have h2 : ¬p < task.orderIndex := by omega
          have h3 : task.orderIndex < p := h
          cases b <;> cases c <;> simp [tryOp, Except.bind, hst2, h2, h3]
  · intro task hf hb hst
    subst hb
    unfold updateTaskOrderF
    rw [hf]
    cases a <;> cases c <;> simp [tryOp, Except.bind, hst]

/-- Witness for C7: a missing id yields `NotFoundError` without change,
and a failing final write, a failing destination shift, and a failing
source shift on an existing task each yield `StorageError` without
change. -/
theorem move_error_contract_witness :
    updateTaskOrderF ⟨false, false, true⟩ [⟨1, 1, .todo, 1000, 0⟩] 9 1 .done 500
      = ([⟨1, 1, .todo, 1000, 0⟩], .error .notFound)
    ∧ updateTaskOrderF ⟨false, false, true⟩ [⟨1, 1, .todo, 1000, 0⟩] 1 1 .done 500
      = ([⟨1, 1, .todo, 1000, 0⟩], .error .storage)
    ∧ updateTaskOrderF ⟨true, false, false⟩ [⟨1, 1, .todo, 1000, 0⟩] 1 1 .done 500
      = ([⟨1, 1, .todo, 1000, 0⟩], .error .storage)
    ∧ updateTaskOrderF ⟨false, true, false⟩ [⟨1, 1, .todo, 1000, 0⟩] 1 1 .done 500
      = ([⟨1, 1, .todo, 1000, 0⟩], .error .storage) := by
  obtain ⟨h1, -, -, -, -⟩ :=
    move_error_contract ⟨false, false, true⟩ [⟨1, 1, .todo, 1000, 0⟩] 9 1 .done 500
  obtain ⟨-, -, h3, -, -⟩ :=
    move_error_contract ⟨false, false, true⟩ [⟨1, 1, .todo, 1000, 0⟩] 1 1 .done 500
  obtain ⟨-, -, -, h4, -⟩ :=
    move_error_contract ⟨true, false, false⟩ [⟨1, 1, .todo, 1000, 0⟩] 1 1 .done 500
  obtain ⟨-, -, -, -, h5⟩ :=
    move_error_contract ⟨false, true, false⟩ [⟨1, 1, .todo, 1000, 0⟩] 1 1 .done 500
  exact ⟨h1 (by decide), h3 ⟨1, 1, .todo, 1000, 0⟩ (by decide) rfl,
    h4 ⟨1, 1, .todo, 1000, 0⟩ (by decide) rfl (Or.inl (by decide)),
    h5 ⟨1, 1, .todo, 1000, 0⟩ (by decide) rfl (by decide)⟩

/-! ## C8: boundary validation (corrected)

The claim states that a negative or non-finite position is rejected with
a 400 `InvalidArgumentError`.  The validator chain is
`check('orderIndex').notEmpty().isNumeric().toInt()`: `isNumeric` with
default options accepts a leading minus sign, so a negative integer
passes validation and reaches the engine.  Only non-numeric raw values
(including the non-finite spellings `Infinity`/`NaN` and the empty
string) and out-of-enumeration groups are rejected. -/

/-- Counterexample to C8 as stated: the raw position `-5` is negative,
passes the `isNumeric` validation, and the move is executed — the
request succeeds and the store changes. -/
theorem negative_position_not_rejected :
    isNumericChars ['-', '5'] = true
    ∧ parseIntChars ['-', '5'] = some (-5)
    ∧ (-5 : Int) < 0
    ∧ (updateTaskOrderEndpoint [⟨1, 1, .todo, 1000, 0⟩, ⟨2, 1, .todo, 500, 0⟩]
        1 1 ['t', 'o', 'd', 'o'] ['-', '5']).2
        = .ok ⟨1, 1, .todo, -5, 0⟩
    ∧ (updateTaskOrderEndpoint [⟨1, 1, .todo, 1000, 0⟩, ⟨2, 1, .todo, 500, 0⟩]
        1 1 ['t', 'o', 'd', 'o'] ['-', '5']).1
        ≠ [⟨1, 1, .todo, 1000, 0⟩, ⟨2, 1, .todo, 500, 0⟩] := by
  exact ⟨by decide, by decide, by decide, rfl, by decide⟩

/-- C8 as amended.  A request whose group is outside the closed
enumeration, or whose raw position fails `isNumeric` (non-numeric text,
`Infinity`, `NaN`, empty), is rejected with `InvalidArgumentError`
before any state change; negative numeric positions are not rejected. -/
theorem boundary_rejects_invalid (db : Store) (tid : TaskId) (u : UserId)
    (statusRaw orderRaw : List Char)
    (h : taskStatusOfChars statusRaw = none ∨ isNumericChars orderRaw = false) :
    updateTaskOrderEndpoint db tid u statusRaw orderRaw
      = (db, .error .invalidArgument) := by
  unfold updateTaskOrderEndpoint
  rcases h with h | h
  · split
    · exfalso; simp_all
    · rfl
  · split
    · exfalso; simp_all
    · rfl

/-- Witness for C8 as amended: an unknown group and the non-finite
spelling `Infinity` are both rejected without a state change. -/
theorem boundary_rejects_invalid_witness :
    taskStatusOfChars ['x'] = none
    ∧ updateTaskOrderEndpoint [⟨1, 1, .todo, 1000, 0⟩] 1 1 ['x'] ['5']
        = ([⟨1, 1, .todo, 1000, 0⟩], .error .invalidArgument)
    ∧ isNumericChars ['I', 'n', 'f', 'i', 'n', 'i', 't', 'y'] = false
    ∧ updateTaskOrderEndpoint [⟨1, 1, .todo, 1000, 0⟩] 1 1 ['t', 'o', 'd', 'o']
        ['I', 'n', 'f', 'i', 'n', 'i', 't', 'y']
        = ([⟨1, 1, .todo, 1000, 0⟩], .error .invalidArgument) := by
  refine ⟨by decide, ?_, by decide, ?_⟩
  · exact boundary_rejects_invalid _ 1 1 ['x'] ['5'] (Or.inl (by decide))
  · exact boundary_rejects_invalid _ 1 1 ['t', 'o', 'd', 'o']
      ['I', 'n', 'f', 'i', 'n', 'i', 't', 'y'] (Or.inr (by decide))

/-! ## Pointwise characterisation of the move executor -/

/-- The transactional composite of a cross-group move equals the per-item
description of the spec, and the returned document is the moved task. -/
theorem cross_move_eq (db : Store) (tid : TaskId) (u : UserId)
    (gnew : TaskStatus) (pnew : Int) (task : TaskRec)
    (hids : (db.map TaskRec.id).Nodup)
    (hfind : db.find? (fun t => decide (t.id = tid ∧ t.createdBy = u)) = some task)
    (hgroup : task.status ≠ gnew) :
    updateTaskOrder db tid u gnew pnew =
      (db.map (crossMoveSpecItem tid u task.status gnew task.orderIndex pnew),
        .ok { task with status := gnew, orderIndex := pnew }) := by
  have hmem : task ∈ db := List.mem_of_find?_eq_some hfind
  have hpred : task.id = tid ∧ task.createdBy = u := by
    have hp := List.find?_some hfind
    simpa using hp
  have htid : task.id = tid := hpred.1
  have hu : task.createdBy = u := hpred.2
  unfold updateTaskOrder updateTaskOrderF
  rw [hfind]
  simp only [tryOp, Bool.false_eq_true, if_false, if_pos hgroup, Except.bind]
  refine Prod.ext ?_ rfl
  show ((db.map (destShiftItem u gnew pnew)).map
      (srcShiftItem u task.status task.orderIndex)).map
      (finalSetItem tid gnew pnew) = _
  rw [List.map_map, List.map_map]
  apply List.map_congr_left
  intro x hx
  simp only [Function.comp]
  by_cases hid : x.id = tid
  · have hxeq : x = task := eq_of_mem_of_id_eq hids hx hmem (hid.trans htid.symm)
    subst hxeq
    simp [destShiftItem, srcShiftItem, finalSetItem, crossMoveSpecItem, htid, hu, hgroup]
  · have hgs : gnew ≠ task.status := fun h => hgroup h.symm
    by_cases hdest : x.createdBy = u ∧ x.status = gnew ∧ pnew ≤ x.orderIndex
    · simp [destShiftItem, srcShiftItem, finalSetItem, crossMoveSpecItem, hid, hdest, hgs]
    · by_cases hsrc : x.createdBy = u ∧ x.status = task.status ∧ task.orderIndex < x.orderIndex
      · simp [destShiftItem, srcShiftItem, finalSetItem, crossMoveSpecItem, hid, hsrc, hgroup, hgs]
      · simp [destShiftItem, srcShiftItem, finalSetItem, crossMoveSpecItem, hid, hdest, hsrc]

/-- The transactional composite of a same-group reorder equals the
per-item description of the spec, and the returned document is the moved
task at its new position. -/
theorem same_move_eq (db : Store) (tid : TaskId) (u : UserId) (pnew : Int)
    (task : TaskRec)
    (hids : (db.map TaskRec.id).Nodup)
    (hfind : db.find? (fun t => decide (t.id = tid ∧ t.createdBy = u)) = some task) :
    updateTaskOrder db tid u task.status pnew =
      (db.map (sameGroupMoveSpecItem tid u task.status task.orderIndex pnew),
        .ok { task with orderIndex := pnew }) := by
  have hmem : task ∈ db := List.mem_of_find?_eq_some hfind
  have hpred : task.id = tid ∧ task.createdBy = u := by
    have hp := List.find?_some hfind
    simpa using hp
  have htid : task.id = tid := hpred.1
  have hu : task.createdBy = u := hpred.2
  unfold updateTaskOrder updateTaskOrderF
  rw [hfind]
  have hne : ¬(task.status ≠ task.status) := fun h => h rfl
  simp only [tryOp, Bool.false_eq_true, if_false, if_neg hne, Except.bind]
  rcases lt_trichotomy pnew task.orderIndex with hlt | heq | hgt
  · have hnlt : ¬(task.orderIndex < pnew) := by omega
    rw [if_pos hlt]
    refine Prod.ext ?_ rfl
    show ((db.map (upShiftItem u task.status pnew task.orderIndex)).map
        (finalSetItem tid task.status pnew)) = _
    rw [List.map_map]
    apply List.map_congr_left
    intro x hx
    simp only [Function.comp]
    by_cases hid : x.id = tid
    · have hxeq : x = task := eq_of_mem_of_id_eq hids hx hmem (hid.trans htid.symm)
      subst hxeq
      simp [upShiftItem, finalSetItem, sameGroupMoveSpecItem, htid, hu, hlt]
    · by_cases hup : x.createdBy = u ∧ x.status = task.status ∧
          pnew ≤ x.orderIndex ∧ x.orderIndex < task.orderIndex
      · simp [upShiftItem, finalSetItem, sameGroupMoveSpecItem, hid, hup, hlt, hnlt]
      · simp [upShiftItem, finalSetItem, sameGroupMoveSpecItem, hid, hup, hlt, hnlt]
  · have h1 : ¬(pnew < task.orderIndex) := by omega
    have h2 : ¬(task.orderIndex < pnew) := by omega
    rw [if_neg h1, if_neg h2]
    refine Prod.ext ?_ rfl
    show db.map (finalSetItem tid task.status pnew) = _
    apply List.map_congr_left
    intro x hx
    by_cases hid : x.id = tid
    · have hxeq : x = task := eq_of_mem_of_id_eq hids hx hmem (hid.trans htid.symm)
      subst hxeq
      simp [finalSetItem, sameGroupMoveSpecItem, htid]
    · simp [finalSetItem, sameGroupMoveSpecItem, hid, h1, h2]
  · have hnlt : ¬(pnew < task.orderIndex) := by omega
    rw [if_neg hnlt, if_pos hgt]
    refine Prod.ext ?_ rfl
    show ((db.map (downShiftItem u task.status task.orderIndex pnew)).map
        (finalSetItem tid task.status pnew)) = _
    rw [List.map_map]
    apply List.map_congr_left
    intro x hx
    simp only [Function.comp]
    by_cases hid : x.id = tid
    · have hxeq : x = task := eq_of_mem_of_id_eq hids hx hmem (hid.trans htid.symm)
      subst hxeq
      simp [downShiftItem, finalSetItem, sameGroupMoveSpecItem, htid, hu, hgt]
    · by_cases hdn : x.createdBy = u ∧ x.status = task.status ∧
          task.orderIndex < x.orderIndex ∧ x.orderIndex ≤ pnew
      · simp [downShiftItem, finalSetItem, sameGroupMoveSpecItem, hid, hdn, hgt, hnlt]
      · simp [downShiftItem, finalSetItem, sameGroupMoveSpecItem, hid, hdn, hgt, hnlt]

/-! ## C1 and C2: the move executor -/

/-- C1.  A cross-group move, in one transaction, increments by `SPACING`
exactly the destination-partition items at or after the new position,
decrements by `SPACING` exactly the source-partition items after the old
position, re-homes the moved item to `(gnew, pnew)`, and changes nothing
else — the committed store is the per-item spec description applied to
every document. -/
theorem move_cross_group (db : Store) (tid : TaskId) (u : UserId)
    (gnew : TaskStatus) (pnew : Int) (task : TaskRec)
    (hids : (db.map TaskRec.id).Nodup)
    (hfind : db.find? (fun t => decide (t.id = tid ∧ t.createdBy = u)) = some task)
    (hgroup : task.status ≠ gnew) :
    updateTaskOrder db tid u gnew pnew =
      (db.map (crossMoveSpecItem tid u task.status gnew task.orderIndex pnew),
        .ok { task with status := gnew, orderIndex := pnew }) :=
  cross_move_eq db tid u gnew pnew task hids hfind hgroup

/-- Witness for C1, the spec's Scenario C: moving the only `todo` item
into `done` (positions `[1000, 2000]`) at position `1000` leaves `done`
at `{1000, 2000, 3000}` and `todo` empty. -/
theorem move_cross_group_witness :
    (([⟨1, 1, .todo, 1000, 0⟩, ⟨2, 1, .done, 1000, 0⟩, ⟨3, 1, .done, 2000, 0⟩] :
        Store).map TaskRec.id).Nodup
    ∧ ([⟨1, 1, .todo, 1000, 0⟩, ⟨2, 1, .done, 1000, 0⟩, ⟨3, 1, .done, 2000, 0⟩] :
        Store).find? (fun t => decide (t.id = 1 ∧ t.createdBy = 1))
        = some ⟨1, 1, .todo, 1000, 0⟩
    ∧ (⟨1, 1, .todo, 1000, 0⟩ : TaskRec).status ≠ TaskStatus.done
    ∧ updateTaskOrder [⟨1, 1, .todo, 1000, 0⟩, ⟨2, 1, .done, 1000, 0⟩,
        ⟨3, 1, .done, 2000, 0⟩] 1 1 .done 1000 =
        (([⟨1, 1, .todo, 1000, 0⟩, ⟨2, 1, .done, 1000, 0⟩, ⟨3, 1, .done, 2000, 0⟩] :
          Store).map (crossMoveSpecItem 1 1 .todo .done 1000 1000),
          .ok ⟨1, 1, .done, 1000, 0⟩)
    ∧ partitionPositions (updateTaskOrder [⟨1, 1, .todo, 1000, 0⟩,
        ⟨2, 1, .done, 1000, 0⟩, ⟨3, 1, .done, 2000, 0⟩] 1 1 .done 1000).1 1 .done
        = [1000, 2000, 3000]
    ∧ partitionPositions (updateTaskOrder [⟨1, 1, .todo, 1000, 0⟩,
        ⟨2, 1, .done, 1000, 0⟩, ⟨3, 1, .done, 2000, 0⟩] 1 1 .done 1000).1 1 .todo
        = [] :=
  ⟨by decide, by decide, by decide,
    move_cross_group _ 1 1 .done 1000 ⟨1, 1, .todo, 1000, 0⟩
      (by decide) (by decide) (by decide),
    by decide, by decide⟩

/-- C2.  A same-group reorder, in one transaction, shifts by `SPACING`
exactly the other partition items in `[pnew, pold)` (moving up) or
`(pold, pnew]` (moving down), shifts nothing when the position is
unchanged, and sets the moved item's position to `pnew` with its group
unchanged — the committed store is the per-item spec description applied
to every document. -/
theorem move_same_group (db : Store) (tid : TaskId) (u : UserId)
    (g : TaskStatus) (pnew : Int) (task : TaskRec)
    (hids : (db.map TaskRec.id).Nodup)
    (hfind : db.find? (fun t => decide (t.id = tid ∧ t.createdBy = u)) = some task)
    (hsame : task.status = g) :
    updateTaskOrder db tid u g pnew =
      (db.map (sameGroupMoveSpecItem tid u g task.orderIndex pnew),
        .ok { task with status := g, orderIndex := pnew }) := by
  subst hsame
  exact same_move_eq db tid u pnew task hids hfind

/-- Witness for C2, the spec's Scenario B: with `A=1000, B=2000, C=3000`,
moving B to `3500` within the group yields `A=1000, C=2000, B=3500`. -/
theorem move_same_group_witness :
    (([⟨1, 1, .todo, 1000, 0⟩, ⟨2, 1, .todo, 2000, 0⟩, ⟨3, 1, .todo, 3000, 0⟩] :
        Store).map TaskRec.id).Nodup
    ∧ ([⟨1, 1, .todo, 1000, 0⟩, ⟨2, 1, .todo, 2000, 0⟩, ⟨3, 1, .todo, 3000, 0⟩] :
        Store).find? (fun t => decide (t.id = 2 ∧ t.createdBy = 1))
        = some ⟨2, 1, .todo, 2000, 0⟩
    ∧ (⟨2, 1, .todo, 2000, 0⟩ : TaskRec).status = TaskStatus.todo
    ∧ updateTaskOrder [⟨1, 1, .todo, 1000, 0⟩, ⟨2, 1, .todo, 2000, 0⟩,
        ⟨3, 1, .todo, 3000, 0⟩] 2 1 .todo 3500 =
        (([⟨1, 1, .todo, 1000, 0⟩, ⟨2, 1, .todo, 2000, 0⟩, ⟨3, 1, .todo, 3000, 0⟩] :
          Store).map (sameGroupMoveSpecItem 2 1 .todo 2000 3500),
          .ok ⟨2, 1, .todo, 3500, 0⟩)
    ∧ (updateTaskOrder [⟨1, 1, .todo, 1000, 0⟩, ⟨2, 1, .todo, 2000, 0⟩,
        ⟨3, 1, .todo, 3000, 0⟩] 2 1 .todo 3500).1
        = [⟨1, 1, .todo, 1000, 0⟩, ⟨2, 1, .todo, 3500, 0⟩, ⟨3, 1, .todo, 2000, 0⟩] :=
  ⟨by decide, by decide, by decide,
    move_same_group _ 2 1 .todo 3500 ⟨2, 1, .todo, 2000, 0⟩
      (by decide) (by decide) (by decide),
    by decide⟩

/-! ## Position multisets of the target partition after a move -/

/-- A cross-group spec step does not change `createdBy` or `status` of a
document other than the moved one. -/
theorem crossMoveSpecItem_preserves (tid : TaskId) (u : UserId)
    (gold gnew : TaskStatus) (pold pnew : Int) (x : TaskRec) (hid : x.id ≠ tid) :
    (crossMoveSpecItem tid u gold gnew pold pnew x).createdBy = x.createdBy
    ∧ (crossMoveSpecItem tid u gold gnew pold pnew x).status = x.status := by
  unfold crossMoveSpecItem
  split_ifs <;> simp_all

/-- A same-group spec step does not change `createdBy` or `status` of a
document other than the moved one. -/
theorem sameGroupMoveSpecItem_preserves (tid : TaskId) (u : UserId)
    (g : TaskStatus) (pold pnew : Int) (x : TaskRec) (hid : x.id ≠ tid) :
    (sameGroupMoveSpecItem tid u g pold pnew x).createdBy = x.createdBy
    ∧ (sameGroupMoveSpecItem tid u g pold pnew x).status = x.status := by
  unfold sameGroupMoveSpecItem
  split_ifs <;> simp_all

/-- After a cross-group move, the destination partition's multiset of
positions is the new position together with the old positions shifted by
`destShiftPos`. -/
theorem cross_dest_positions (db : Store) (tid : TaskId) (u : UserId)
    (gnew : TaskStatus) (pnew : Int) (task : TaskRec)
    (hids : (db.map TaskRec.id).Nodup)
    (hfind : db.find? (fun t => decide (t.id = tid ∧ t.createdBy = u)) = some task)
    (hgroup : task.status ≠ gnew) :
    (partitionPositions ((updateTaskOrder db tid u gnew pnew).1) u gnew).Perm
      (pnew :: (partitionPositions db u gnew).map (destShiftPos pnew)) := by
  have hmem : task ∈ db := List.mem_of_find?_eq_some hfind
  have hpred : task.id = tid ∧ task.createdBy = u := by
    have hp := List.find?_some hfind
    simpa using hp
  have htid := hpred.1
  have hu := hpred.2
  have hgs : gnew ≠ task.status := fun h => hgroup h.symm
  have hfst : (updateTaskOrder db tid u gnew pnew).1
      = db.map (crossMoveSpecItem tid u task.status gnew task.orderIndex pnew) := by
    rw [cross_move_eq db tid u gnew pnew task hids hfind hgroup]
  have hperm0 : db.Perm (task :: db.erase task) := List.perm_cons_erase hmem
  have hrest_ids : task.id ∉ (db.erase task).map TaskRec.id := by
    have h2 := (hperm0.map TaskRec.id).nodup hids
    exact (List.nodup_cons.mp h2).1
  have hid_rest : ∀ x ∈ db.erase task, x.id ≠ tid := by
    intro x hx h
    have hmm : x.id ∈ (db.erase task).map TaskRec.id := List.mem_map_of_mem TaskRec.id hx
    rw [h, ← htid] at hmm
    exact hrest_ids hmm
  have hFtask : crossMoveSpecItem tid u task.status gnew task.orderIndex pnew task
      = { task with status := gnew, orderIndex := pnew } := by
    simp [crossMoveSpecItem, htid]
  have h1 : (fun t => decide (t.createdBy = u ∧ t.status = gnew))
      (crossMoveSpecItem tid u task.status gnew task.orderIndex pnew task) = true := by
    simp [hFtask, hu]
  have hcg : ∀ x ∈ db.erase task,
      ((fun t => decide (t.createdBy = u ∧ t.status = gnew)) ∘
        crossMoveSpecItem tid u task.status gnew task.orderIndex pnew) x
      = (fun t => decide (t.createdBy = u ∧ t.status = gnew)) x := by
    intro x hx
    have hp := crossMoveSpecItem_preserves tid u task.status gnew task.orderIndex pnew x
      (hid_rest x hx)
    simp [Function.comp, hp.1, hp.2]
  have hpd_task :
      ¬((fun t => decide (t.createdBy = u ∧ t.status = gnew)) task = true) := by
    simp [hgroup]
  have hpre : (db.filter (fun t => decide (t.createdBy = u ∧ t.status = gnew))).Perm
      ((db.erase task).filter (fun t => decide (t.createdBy = u ∧ t.status = gnew))) := by
    have h3 := hperm0.filter (fun t => decide (t.createdBy = u ∧ t.status = gnew))
    have h4 : (task :: db.erase task).filter
          (fun t => decide (t.createdBy = u ∧ t.status = gnew))
        = (db.erase task).filter
          (fun t => decide (t.createdBy = u ∧ t.status = gnew)) :=
      List.filter_cons_of_neg hpd_task
    rwa [h4] at h3
  have htail_eq : (((db.erase task).filter
        (fun t => decide (t.createdBy = u ∧ t.status = gnew))).map
        ((fun t => t.orderIndex) ∘
          crossMoveSpecItem tid u task.status gnew task.orderIndex pnew))
      = (((db.erase task).filter
          (fun t => decide (t.createdBy = u ∧ t.status = gnew))).map
          (fun t => t.orderIndex)).map (destShiftPos pnew) := by
    rw [List.map_map]
    apply List.map_congr_left
    intro x hx
    have hx1 : x ∈ db.erase task := List.mem_of_mem_filter hx
    have hx2 : x.createdBy = u ∧ x.status = gnew := by
      simpa using List.of_mem_filter hx
    have hidx := hid_rest x hx1
    by_cases hle : pnew ≤ x.orderIndex <;>
      simp [Function.comp, crossMoveSpecItem, destShiftPos, hidx, hx2.1, hx2.2, hle, hgs]
  have h5 : (task :: db.erase task).filter
        ((fun t => decide (t.createdBy = u ∧ t.status = gnew)) ∘
          crossMoveSpecItem tid u task.status gnew task.orderIndex pnew)
      = task :: (db.erase task).filter
        ((fun t => decide (t.createdBy = u ∧ t.status = gnew)) ∘
          crossMoveSpecItem tid u task.status gnew task.orderIndex pnew) :=
    List.filter_cons_of_pos h1
  unfold partitionPositions partitionOf
  rw [hfst, List.filter_map, List.map_map]
  refine ((hperm0.filter _).map _).trans ?_
  rw [h5, List.map_cons, List.filter_congr hcg, htail_eq]
  have hhd : ((fun t => t.orderIndex) ∘
      crossMoveSpecItem tid u task.status gnew task.orderIndex pnew) task = pnew := by
    simp [Function.comp, hFtask]
  rw [hhd]
  exact ((hpre.map (fun t => t.orderIndex)).map (destShiftPos pnew)).symm.cons pnew

/-- After a same-group move, the partition's multiset of positions is the
new position together with the other items' old positions shifted by
`sgShiftPos`; `qs` is the multiset of the other items' old positions. -/
theorem same_move_positions (db : Store) (tid : TaskId) (u : UserId)
    (pnew : Int) (task : TaskRec)
    (hids : (db.map TaskRec.id).Nodup)
    (hfind : db.find? (fun t => decide (t.id = tid ∧ t.createdBy = u)) = some task) :
    ∃ qs : List Int,
      (partitionPositions db u task.status).Perm (task.orderIndex :: qs)
      ∧ (partitionPositions ((updateTaskOrder db tid u task.status pnew).1)
          u task.status).Perm
          (pnew :: qs.map (sgShiftPos task.orderIndex pnew)) := by
  have hmem : task ∈ db := List.mem_of_find?_eq_some hfind
  have hpred : task.id = tid ∧ task.createdBy = u := by
    have hp := List.find?_some hfind
    simpa using hp
  have htid := hpred.1
  have hu := hpred.2
  have hfst : (updateTaskOrder db tid u task.status pnew).1
      = db.map (sameGroupMoveSpecItem tid u task.status task.orderIndex pnew) := by
    rw [same_move_eq db tid u pnew task hids hfind]
  have hperm0 : db.Perm (task :: db.erase task) := List.perm_cons_erase hmem
  have hrest_ids : task.id ∉ (db.erase task).map TaskRec.id := by
    have h2 := (hperm0.map TaskRec.id).nodup hids
    exact (List.nodup_cons.mp h2).1
  have hid_rest : ∀ x ∈ db.erase task, x.id ≠ tid := by
    intro x hx h
    have hmm : x.id ∈ (db.erase task).map TaskRec.id := List.mem_map_of_mem TaskRec.id hx
    rw [h, ← htid] at hmm
    exact hrest_ids hmm
  refine ⟨((db.erase task).filter
      (fun t => decide (t.createdBy = u ∧ t.status = task.status))).map
      (fun t => t.orderIndex), ?_, ?_⟩
  · have hpd_task : (fun t => decide (t.createdBy = u ∧ t.status = task.status)) task
        = true := by simp [hu]
    have h4 : (task :: db.erase task).filter
          (fun t => decide (t.createdBy = u ∧ t.status = task.status))
        = task :: (db.erase task).filter
          (fun t => decide (t.createdBy = u ∧ t.status = task.status)) :=
      List.filter_cons_of_pos hpd_task
    unfold partitionPositions partitionOf
    refine (hperm0.filter _).map _ |>.trans ?_
    rw [h4, List.map_cons]
  · have hFtask : sameGroupMoveSpecItem tid u task.status task.orderIndex pnew task
        = { task with orderIndex := pnew } := by
      simp [sameGroupMoveSpecItem, htid]
    have h1 : ((fun t => decide (t.createdBy = u ∧ t.status = task.status)) ∘
        sameGroupMoveSpecItem tid u task.status task.orderIndex pnew) task = true := by
      simp [Function.comp, hFtask, hu]
    have h5 : (task :: db.erase task).filter
          ((fun t => decide (t.createdBy = u ∧ t.status = task.status)) ∘
            sameGroupMoveSpecItem tid u task.status task.orderIndex pnew)
        = task :: (db.erase task).filter
          ((fun t => decide (t.createdBy = u ∧ t.status = task.status)) ∘
            sameGroupMoveSpecItem tid u task.status task.orderIndex pnew) :=
      List.filter_cons_of_pos h1
    have hcg : ∀ x ∈ db.erase task,
        ((fun t => decide (t.createdBy = u ∧ t.status = task.status)) ∘
          sameGroupMoveSpecItem tid u task.status task.orderIndex pnew) x
        = (fun t => decide (t.createdBy = u ∧ t.status = task.status)) x := by
      intro x hx
      have hp := sameGroupMoveSpecItem_preserves tid u task.status task.orderIndex pnew x
        (hid_rest x hx)
      simp [Function.comp, hp.1, hp.2]
    have htail_eq : (((db.erase task).filter
          (fun t => decide (t.createdBy = u ∧ t.status = task.status))).map
          ((fun t => t.orderIndex) ∘
            sameGroupMoveSpecItem tid u task.status task.orderIndex pnew))
        = (((db.erase task).filter
            (fun t => decide (t.createdBy = u ∧ t.status = task.status))).map
            (fun t => t.orderIndex)).map (sgShiftPos task.orderIndex pnew) := by
      rw [List.map_map]
      apply List.map_congr_left
      intro x hx
      have hx2 : x.createdBy = u ∧ x.status = task.status := by
        simpa using List.of_mem_filter hx
      have hidx := hid_rest x (List.mem_of_mem_filter hx)
      simp only [Function.comp, sameGroupMoveSpecItem, sgShiftPos, hidx, if_false,
        hx2.1, hx2.2, true_and, and_true, if_neg, not_false_iff]
      split_ifs <;> rfl
    have hhd : ((fun t => t.orderIndex) ∘
        sameGroupMoveSpecItem tid u task.status task.orderIndex pnew) task = pnew := by
      simp [Function.comp, hFtask]
    unfold partitionPositions partitionOf
    rw [hfst, List.filter_map, List.map_map]
    refine ((hperm0.filter _).map _).trans ?_
    rw [h5, List.map_cons, List.filter_congr hcg, htail_eq, hhd]

/-- The destination shift is strictly monotone, hence injective. -/
theorem destShiftPos_injective (pnew : Int) :
    Function.Injective (destShiftPos pnew) := by
  intro a b h
  unfold destShiftPos SPACING at h
  split_ifs at h <;> omega

/-- Shifting distinct destination positions and inserting the new
position keeps all positions distinct: shifted positions exceed `pnew`,
unshifted ones stay below it. -/
theorem nodup_cross_positions (pnew : Int) (ps : List Int) (h : ps.Nodup) :
    (pnew :: ps.map (destShiftPos pnew)).Nodup := by
  refine List.nodup_cons.mpr ⟨?_, h.map (destShiftPos_injective pnew)⟩
  intro hmem
  obtain ⟨p, hp, h2⟩ := List.mem_map.mp hmem
  unfold destShiftPos SPACING at h2
  split_ifs at h2 <;> omega

/-- Same-group shift on a `SPACING`-grid: if the old positions (the
moved item's `pold` among them) are distinct multiples of `SPACING` and
`pnew` is an unoccupied multiple of `SPACING`, the post-move positions
are distinct. -/
theorem nodup_sg_positions (pold pnew : Int) (qs : List Int)
    (hnd : (pold :: qs).Nodup)
    (hgrid : ∀ p ∈ pold :: qs, ∃ j : Int, p = SPACING * j)
    (hk : ∃ j : Int, pnew = SPACING * j)
    (hfree : pnew ∉ pold :: qs) :
    (pnew :: qs.map (sgShiftPos pold pnew)).Nodup := by
  obtain ⟨kn, hkn⟩ := hk
  obtain ⟨ko, hko⟩ := hgrid pold (List.mem_cons_self _ _)
  have hpoldqs : pold ∉ qs := (List.nodup_cons.mp hnd).1
  have hqs : qs.Nodup := (List.nodup_cons.mp hnd).2
  refine List.nodup_cons.mpr ⟨?_, ?_⟩
  · intro hmem
    obtain ⟨p, hp, h2⟩ := List.mem_map.mp hmem
    obtain ⟨kp, hkp⟩ := hgrid p (List.mem_cons_of_mem _ hp)
    have hne : p ≠ pnew := fun h => hfree (h ▸ List.mem_cons_of_mem _ hp)
    unfold sgShiftPos at h2
    simp only [SPACING] at h2 hkp hkn hko
    split_ifs at h2 <;> omega
  · refine List.Nodup.map_on ?_ hqs
    intro x hx y hy hxy
    obtain ⟨kx, hkx⟩ := hgrid x (List.mem_cons_of_mem _ hx)
    obtain ⟨ky, hky⟩ := hgrid y (List.mem_cons_of_mem _ hy)
    have hxo : x ≠ pold := fun h => hpoldqs (h ▸ hx)
    have hyo : y ≠ pold := fun h => hpoldqs (h ▸ hy)
    unfold sgShiftPos at hxy
    simp only [SPACING] at hxy hkx hky hkn hko
    split_ifs at hxy <;> omega

/-! ## C10: cross-group moves preserve destination distinctness -/

/-- C10.  For a cross-group move with an arbitrary integer target
position, if the destination partition's positions are pairwise distinct
before the move, they are pairwise distinct after it (the moved item's
position included): shifted items land strictly above `pnew`, unshifted
ones stay strictly below it. -/
theorem cross_move_preserves_distinct (db : Store) (tid : TaskId) (u : UserId)
    (gnew : TaskStatus) (pnew : Int) (task : TaskRec)
    (hids : (db.map TaskRec.id).Nodup)
    (hfind : db.find? (fun t => decide (t.id = tid ∧ t.createdBy = u)) = some task)
    (hgroup : task.status ≠ gnew)
    (hnd : (partitionPositions db u gnew).Nodup) :
    (partitionPositions ((updateTaskOrder db tid u gnew pnew).1) u gnew).Nodup := by
  have hperm := cross_dest_positions db tid u gnew pnew task hids hfind hgroup
  exact hperm.symm.nodup (nodup_cross_positions pnew _ hnd)

/-- Witness for C10: destination `done` holds off-grid positions
`[700, 1100]`; moving onto `pnew = 900` keeps all positions distinct. -/
theorem cross_move_preserves_distinct_witness :
    (([⟨1, 1, .todo, 1000, 0⟩, ⟨2, 1, .done, 700, 0⟩, ⟨3, 1, .done, 1100, 0⟩] :
        Store).map TaskRec.id).Nodup
    ∧ ([⟨1, 1, .todo, 1000, 0⟩, ⟨2, 1, .done, 700, 0⟩, ⟨3, 1, .done, 1100, 0⟩] :
        Store).find? (fun t => decide (t.id = 1 ∧ t.createdBy = 1))
        = some ⟨1, 1, .todo, 1000, 0⟩
    ∧ (⟨1, 1, .todo, 1000, 0⟩ : TaskRec).status ≠ TaskStatus.done
    ∧ (partitionPositions ([⟨1, 1, .todo, 1000, 0⟩, ⟨2, 1, .done, 700, 0⟩,
        ⟨3, 1, .done, 1100, 0⟩] : Store) 1 .done).Nodup
    ∧ (partitionPositions ((updateTaskOrder [⟨1, 1, .todo, 1000, 0⟩,
        ⟨2, 1, .done, 700, 0⟩, ⟨3, 1, .done, 1100, 0⟩] 1 1 .done 900).1) 1 .done).Nodup :=
  ⟨by decide, by decide, by decide, by decide,
    cross_move_preserves_distinct _ 1 1 .done 900 ⟨1, 1, .todo, 1000, 0⟩
      (by decide) (by decide) (by decide) (by decide)⟩

/-! ## C3: no collision from a well-formed move (corrected)

As stated the claim only requires `pnew = SPACING * k` to be unoccupied
in the target partition; it says nothing about the partition's existing
positions.  On positions that are off the `SPACING` grid the same-group
shift can collide: with positions `{1500, 2000, 2500}`, moving the item
at `2000` to the free grid point `3000` shifts `2500` down to `1500`,
duplicating `1500`.  The property holds once the target partition's
pre-move positions are themselves distinct multiples of `SPACING`. -/

/-- Counterexample to C3 as stated: `pnew = 3000 = SPACING * 3` is not
occupied in the target partition `{1500, 2000, 2500}`, yet after
`Move(2, todo, 3000)` two items share position `1500`. -/
theorem offgrid_move_collides :
    (3000 : Int) = SPACING * 3
    ∧ (3000 : Int) ∉ partitionPositions
        ([⟨1, 1, .todo, 1500, 0⟩, ⟨2, 1, .todo, 2000, 0⟩, ⟨3, 1, .todo, 2500, 0⟩] :
          Store) 1 .todo
    ∧ partitionPositions ((updateTaskOrder [⟨1, 1, .todo, 1500, 0⟩,
        ⟨2, 1, .todo, 2000, 0⟩, ⟨3, 1, .todo, 2500, 0⟩] 2 1 .todo 3000).1) 1 .todo
        = [1500, 3000, 1500]
    ∧ ¬(partitionPositions ((updateTaskOrder [⟨1, 1, .todo, 1500, 0⟩,
        ⟨2, 1, .todo, 2000, 0⟩, ⟨3, 1, .todo, 2500, 0⟩] 2 1 .todo 3000).1) 1 .todo).Nodup := by
  refine ⟨by decide, by decide, by decide, by decide⟩

/-- C3 as amended.  If, before the move, the target partition's positions
are pairwise distinct multiples of `SPACING`, and the supplied
`pnew = SPACING * k` is unoccupied there, then after the move no two
items of that partition share a position (both the cross-group and the
same-group case). -/
theorem move_no_collision_on_grid (db : Store) (tid : TaskId) (u : UserId)
    (g : TaskStatus) (pnew k : Int) (task : TaskRec)
    (hids : (db.map TaskRec.id).Nodup)
    (hfind : db.find? (fun t => decide (t.id = tid ∧ t.createdBy = u)) = some task)
    (hnd : (partitionPositions db u g).Nodup)
    (hgrid : ∀ p ∈ partitionPositions db u g, ∃ j : Int, p = SPACING * j)
    (hk : pnew = SPACING * k)
    (hfree : pnew ∉ partitionPositions db u g) :
    (partitionPositions ((updateTaskOrder db tid u g pnew).1) u g).Nodup := by
  by_cases hsame : task.status = g
  · subst hsame
    obtain ⟨qs, hpre, hpost⟩ := same_move_positions db tid u pnew task hids hfind
    refine hpost.symm.nodup ?_
    refine nodup_sg_positions task.orderIndex pnew qs (hpre.nodup hnd) ?_ ⟨k, hk⟩ ?_
    · exact fun p hp => hgrid p (hpre.mem_iff.mpr hp)
    · exact fun h => hfree (hpre.mem_iff.mpr h)
  · have hperm := cross_dest_positions db tid u g pnew task hids hfind hsame
    exact hperm.symm.nodup (nodup_cross_positions pnew _ hnd)

/-- Witness for C3 as amended: on the grid partition `{1000, 2000, 3000}`
(the moved item at `2000`), moving to the free grid point `4000` keeps
all positions distinct. -/
theorem move_no_collision_on_grid_witness :
    (([⟨1, 1, .todo, 1000, 0⟩, ⟨2, 1, .todo, 2000, 0⟩, ⟨3, 1, .todo, 3000, 0⟩] :
        Store).map TaskRec.id).Nodup
    ∧ ([⟨1, 1, .todo, 1000, 0⟩, ⟨2, 1, .todo, 2000, 0⟩, ⟨3, 1, .todo, 3000, 0⟩] :
        Store).find? (fun t => decide (t.id = 2 ∧ t.createdBy = 1))
        = some ⟨2, 1, .todo, 2000, 0⟩
    ∧ (partitionPositions ([⟨1, 1, .todo, 1000, 0⟩, ⟨2, 1, .todo, 2000, 0⟩,
        ⟨3, 1, .todo, 3000, 0⟩] : Store) 1 .todo).Nodup
    ∧ (4000 : Int) = SPACING * 4
    ∧ (4000 : Int) ∉ partitionPositions ([⟨1, 1, .todo, 1000, 0⟩,
        ⟨2, 1, .todo, 2000, 0⟩, ⟨3, 1, .todo, 3000, 0⟩] : Store) 1 .todo
    ∧ (partitionPositions ((updateTaskOrder [⟨1, 1, .todo, 1000, 0⟩,
        ⟨2, 1, .todo, 2000, 0⟩, ⟨3, 1, .todo, 3000, 0⟩] 2 1 .todo 4000).1) 1 .todo).Nodup := by
  refine ⟨by decide, by decide, by decide, by decide, by decide, ?_⟩
  refine move_no_collision_on_grid _ 2 1 .todo 4000 4 ⟨2, 1, .todo, 2000, 0⟩
    (by decide) (by decide) (by decide) ?_ (by decide) (by decide)
  intro p hp
  fin_cases hp <;>
    first
      | exact ⟨1, by decide⟩
      | exact ⟨2, by decide⟩
      | exact ⟨3, by decide⟩

/-! ## Rebalancer lemmas -/

/-- Lookup misses when the key is absent. -/
theorem lookup_eq_none_of_not_mem : ∀ {asg : List (TaskId × Int)} {i : TaskId},
    i ∉ asg.map Prod.fst → asg.lookup i = none := by
  intro asg
  induction asg with
  | nil => intro i _; rfl
  | cons a rest ih =>
    intro i h
    obtain ⟨k, v⟩ := a
    simp only [List.map_cons, List.mem_cons] at h
    push_neg at h
    have hik : (i == k) = false := by simpa using h.1
    simp [List.lookup, hik, ih h.2]

/-- Keys of the rebalancer's assignment list are the loaded ids. -/
theorem assignFrom_keys (l : List TaskRec) :
    ∀ k : Int, (assignFrom k l).map Prod.fst = l.map TaskRec.id := by
  induction l with
  | nil => intro k; rfl
  | cons t ts ih => intro k; simp [assignFrom, ih]

/-- With distinct keys, the sequence of `findByIdAndUpdate` writes equals
a single map over the collection that looks each document's id up in the
assignment list. -/
theorem applyAssignments_eq_map : ∀ (asg : List (TaskId × Int)),
    (asg.map Prod.fst).Nodup →
    ∀ db : Store, applyAssignments db asg = db.map (applyFun asg) := by
  intro asg
  induction asg with
  | nil =>
    intro _ db
    have h2 : ∀ t ∈ db, applyFun [] t = id t := fun t _ => rfl
    show db = db.map (applyFun [])
    rw [List.map_congr_left h2, List.map_id]
  | cons a rest ih =>
    intro hk db
    obtain ⟨i, p⟩ := a
    simp only [List.map_cons, List.nodup_cons] at hk
    show applyAssignments (updateById db i p) rest = _
    rw [ih hk.2 (updateById db i p)]
    unfold updateById
    rw [List.map_map]
    apply List.map_congr_left
    intro x _
    by_cases hx : x.id = i
    · have hl1 : List.lookup x.id ((i, p) :: rest) = some p := by
        simp [List.lookup, hx]
      have hl2 : List.lookup i rest = none := lookup_eq_none_of_not_mem hk.1
      simp [Function.comp, applyFun, hx, hl1, hl2]
    · have hbx : (x.id == i) = false := by simpa using hx
      simp [Function.comp, applyFun, hx, List.lookup, hbx]

/-- A rebalance write changes neither id, owner nor status. -/
theorem applyFun_fields (asg : List (TaskId × Int)) (t : TaskRec) :
    (applyFun asg t).id = t.id ∧ (applyFun asg t).createdBy = t.createdBy
    ∧ (applyFun asg t).status = t.status := by
  unfold applyFun
  cases asg.lookup t.id <;> simp

/-- Filtering by owner and status commutes with a map that preserves
owner and status. -/
theorem partition_map_of_preserves (db : Store) (u : UserId) (g : TaskStatus)
    (F : TaskRec → TaskRec)
    (hF : ∀ x ∈ db, (F x).createdBy = x.createdBy ∧ (F x).status = x.status) :
    partitionOf (db.map F) u g = (partitionOf db u g).map F := by
  unfold partitionOf
  rw [List.filter_map]
  congr 1
  apply List.filter_congr
  intro x hx
  simp [Function.comp, (hF x hx).1, (hF x hx).2]

/-- Finding a document by id after an id-preserving map returns the image
of the original document. -/
theorem find?_map_by_id (F : TaskRec → TaskRec) (hF : ∀ x, (F x).id = x.id) :
    ∀ (db : Store), (db.map TaskRec.id).Nodup → ∀ t ∈ db,
      (db.map F).find? (fun x => x.id == t.id) = some (F t) := by
  intro db
  induction db with
  | nil => intro _ t ht; exact absurd ht (List.not_mem_nil t)
  | cons y ys ih =>
    intro hnd t ht
    simp only [List.map_cons, List.nodup_cons] at hnd
    rcases List.mem_cons.mp ht with rfl | hts
    · have hb : ((F t).id == t.id) = true := by simp [hF]
      simp [List.find?, hb]
    · have hne : y.id ≠ t.id := by
        intro h
        exact hnd.1 (h ▸ List.mem_map_of_mem TaskRec.id hts)
      have hb : ((F y).id == t.id) = false := by simp [hF, hne]
      simp [List.find?, hb, ih hnd.2 t hts]

/-- Applying the rebalancer's writes to the loaded list itself yields the
list with canonical positions written in, in load order. -/
theorem map_applyFun_assignFrom : ∀ (l : List TaskRec),
    (l.map TaskRec.id).Nodup →
    ∀ k : Int, l.map (applyFun (assignFrom k l)) = assignedList k l := by
  intro l
  induction l with
  | nil => intro _ k; rfl
  | cons t ts ih =>
    intro hnd k
    simp only [List.map_cons, List.nodup_cons] at hnd
    have hhead : applyFun (assignFrom k (t :: ts)) t
        = { t with orderIndex := k * SPACING } := by
      simp [assignFrom, applyFun, List.lookup]
    have htail : ts.map (applyFun (assignFrom k (t :: ts)))
        = ts.map (applyFun (assignFrom (k + 1) ts)) := by
      apply List.map_congr_left
      intro x hx
      have hne : (x.id == t.id) = false := by
        have h3 : x.id ≠ t.id := by
          intro h
          exact hnd.1 (h ▸ List.mem_map_of_mem TaskRec.id hx)
        simpa using h3
      simp [assignFrom, applyFun, List.lookup, hne]
    show applyFun (assignFrom k (t :: ts)) t :: ts.map (applyFun (assignFrom k (t :: ts)))
        = { t with orderIndex := k * SPACING } :: assignedList (k + 1) ts
    rw [hhead, htail, ih hnd.2 (k + 1)]

/-- Positions of the canonically re-assigned list. -/
theorem assignedList_map_pos : ∀ (l : List TaskRec) (k : Int),
    (assignedList k l).map (fun t => t.orderIndex) = canonicalFrom k l.length := by
  intro l
  induction l with
  | nil => intro k; rfl
  | cons t ts ih => intro k; simp [assignedList, canonicalFrom, ih]

/-- Members of the canonical position list. -/
theorem mem_canonicalFrom : ∀ (n : Nat) (k p : Int), p ∈ canonicalFrom k n →
    ∃ j : Nat, j < n ∧ p = (k + j) * SPACING := by
  intro n
  induction n with
  | zero => intro k p hp; exact absurd hp (List.not_mem_nil p)
  | succ m ih =>
    intro k p hp
    rcases List.mem_cons.mp hp with rfl | hp2
    · exact ⟨0, Nat.succ_pos m, by simp⟩
    · obtain ⟨j, hj, hpj⟩ := ih (k + 1) p hp2
      refine ⟨j + 1, by omega, ?_⟩
      rw [hpj]
      push_cast
      ring

/-- The canonical position list is strictly increasing. -/
theorem canonicalFrom_pairwise_lt : ∀ (n : Nat) (k : Int),
    (canonicalFrom k n).Pairwise (· < ·) := by
  intro n
  induction n with
  | zero => intro k; exact List.Pairwise.nil
  | succ m ih =>
    intro k
    refine List.pairwise_cons.mpr ⟨?_, ih (k + 1)⟩
    intro p hp
    obtain ⟨j, hj, hpj⟩ := mem_canonicalFrom m (k + 1) p hp
    rw [hpj]
    simp only [SPACING]
    omega

/-- The canonically re-assigned list is strictly increasing in position. -/
theorem assignedList_pairwise_lt (l : List TaskRec) (k : Int) :
    (assignedList k l).Pairwise taskLT := by
  have h1 := canonicalFrom_pairwise_lt l.length k
  rw [← assignedList_map_pos l k, List.pairwise_map] at h1
  exact h1

/-- Re-assignment keeps the ids of the loaded list. -/
theorem assignedList_ids : ∀ (l : List TaskRec) (k : Int),
    (assignedList k l).map TaskRec.id = l.map TaskRec.id := by
  intro l
  induction l with
  | nil => intro k; rfl
  | cons t ts ih => intro k; simp [assignedList, ih]

/-- Each loaded task's id looks up to `(k + index) * SPACING`, where
`index` is its position in the loaded list. -/
theorem lookup_assignFrom_of_mem : ∀ (l : List TaskRec),
    (l.map TaskRec.id).Nodup → ∀ t ∈ l, ∀ k : Int,
    ∃ (j : Nat) (h : j < l.length), l.get ⟨j, h⟩ = t
      ∧ (assignFrom k l).lookup t.id = some ((k + j) * SPACING) := by
  intro l
  induction l with
  | nil => intro _ t ht; exact absurd ht (List.not_mem_nil t)
  | cons y ys ih =>
    intro hnd t ht k
    simp only [List.map_cons, List.nodup_cons] at hnd
    rcases List.mem_cons.mp ht with rfl | hts
    · refine ⟨0, by simp, rfl, ?_⟩
      simp [assignFrom, List.lookup]
    · have hne : (t.id == y.id) = false := by
        have h3 : t.id ≠ y.id := by
          intro h
          exact hnd.1 (h ▸ List.mem_map_of_mem TaskRec.id hts)
        simpa using h3
      obtain ⟨j, hj, hget, hlk⟩ := ih hnd.2 t hts (k + 1)
      refine ⟨j + 1, by simpa using Nat.succ_lt_succ hj, hget, ?_⟩
      rw [show assignFrom k (y :: ys) = (y.id, k * SPACING) :: assignFrom (k + 1) ys
        from rfl]
      simp only [List.lookup, hne, hlk]
      refine congrArg some ?_
      push_cast
      ring

/-- The assignment list computed from an already-canonical list pairs
each document's id with its current position. -/
theorem assignFrom_assignedList : ∀ (l : List TaskRec) (k : Int),
    assignFrom k (assignedList k l)
      = (assignedList k l).map (fun t => (t.id, t.orderIndex)) := by
  intro l
  induction l with
  | nil => intro k; rfl
  | cons t ts ih => intro k; simp [assignedList, assignFrom, ih]

/-- A hit in a self-pairing lookup comes from a member with that id and
that position. -/
theorem lookup_selfPairs : ∀ (L : List TaskRec) (i : TaskId) (p : Int),
    (L.map (fun t => (t.id, t.orderIndex))).lookup i = some p →
    ∃ y ∈ L, y.id = i ∧ y.orderIndex = p := by
  intro L
  induction L with
  | nil => intro i p h; exact absurd h (by simp [List.lookup])
  | cons y ys ih =>
    intro i p h
    by_cases hy : (i == y.id) = true
    · have hval : y.orderIndex = p := by
        simpa [List.lookup, hy] using h
      have hiy : i = y.id := by simpa using hy
      exact ⟨y, List.mem_cons_self _ _, hiy.symm, hval⟩
    · have hy2 : (i == y.id) = false := by simpa using hy
      obtain ⟨z, hz, hzi, hzp⟩ := ih i p (by simpa [List.lookup, hy2] using h)
      exact ⟨z, List.mem_cons_of_mem _ hz, hzi, hzp⟩

/-! ## C4: rebalance produces canonical spacing -/

/-- C4.  After rebalancing one `(owner, status)` partition of `n` items,
the partition's positions are exactly `SPACING, 2*SPACING, …, n*SPACING`
(as a multiset, hence sorted ascending exactly that list), and the
assignment preserves relative order: an item with a strictly smaller
pre-rebalance position ends at a strictly smaller canonical position. -/
theorem rebalance_canonical_spacing (db : Store) (u : UserId) (st : TaskStatus)
    (l : List TaskRec)
    (hids : (db.map TaskRec.id).Nodup)
    (hload : IsSortedLoad db u st l) :
    (partitionPositions (rebalanceApply db l) u st).Perm
      (canonicalFrom 1 (partitionOf db u st).length)
    ∧ ∀ t1 ∈ partitionOf db u st, ∀ t2 ∈ partitionOf db u st,
        t1.orderIndex < t2.orderIndex →
        posD (rebalanceApply db l) t1.id < posD (rebalanceApply db l) t2.id := by
  obtain ⟨hperm, hsorted⟩ := hload
  have hpart_ids : ((partitionOf db u st).map TaskRec.id).Nodup := by
    have hsub : ((partitionOf db u st).map TaskRec.id).Sublist (db.map TaskRec.id) :=
      (List.filter_sublist db).map TaskRec.id
    exact List.Nodup.sublist hsub hids
  have hlids : (l.map TaskRec.id).Nodup := ((hperm.map TaskRec.id).symm).nodup hpart_ids
  have hkeys : ((assignFrom 1 l).map Prod.fst).Nodup := by
    rw [assignFrom_keys]
    exact hlids
  have hdb1 : rebalanceApply db l = db.map (applyFun (assignFrom 1 l)) :=
    applyAssignments_eq_map (assignFrom 1 l) hkeys db
  have hpart1 : partitionOf (rebalanceApply db l) u st
      = (partitionOf db u st).map (applyFun (assignFrom 1 l)) := by
    rw [hdb1]
    exact partition_map_of_preserves db u st _
      (fun x _ => ⟨(applyFun_fields _ x).2.1, (applyFun_fields _ x).2.2⟩)
  constructor
  · unfold partitionPositions
    rw [hpart1, List.map_map]
    refine ((hperm.symm.map _)).trans ?_
    rw [← List.map_map, map_applyFun_assignFrom l hlids 1, assignedList_map_pos,
      hperm.length_eq]
  · intro t1 ht1 t2 ht2 hlt
    have ht1l : t1 ∈ l := hperm.mem_iff.mpr ht1
    have ht2l : t2 ∈ l := hperm.mem_iff.mpr ht2
    obtain ⟨j1, hj1, hg1, hl1⟩ := lookup_assignFrom_of_mem l hlids t1 ht1l 1
    obtain ⟨j2, hj2, hg2, hl2⟩ := lookup_assignFrom_of_mem l hlids t2 ht2l 1
    have hfind1 : (db.map (applyFun (assignFrom 1 l))).find? (fun x => x.id == t1.id)
        = some (applyFun (assignFrom 1 l) t1) :=
      find?_map_by_id _ (fun x => (applyFun_fields _ x).1) db hids t1
        (List.mem_of_mem_filter ht1)
    have hfind2 : (db.map (applyFun (assignFrom 1 l))).find? (fun x => x.id == t2.id)
        = some (applyFun (assignFrom 1 l) t2) :=
      find?_map_by_id _ (fun x => (applyFun_fields _ x).1) db hids t2
        (List.mem_of_mem_filter ht2)
    have hpos1 : posD (rebalanceApply db l) t1.id = (1 + (j1 : Int)) * SPACING := by
      unfold posD
      rw [hdb1, hfind1]
      simp [applyFun, hl1]
    have hpos2 : posD (rebalanceApply db l) t2.id = (1 + (j2 : Int)) * SPACING := by
      unfold posD
      rw [hdb1, hfind2]
      simp [applyFun, hl2]
    rw [hpos1, hpos2]
    have hj12 : j1 < j2 := by
      rcases lt_trichotomy j1 j2 with h | h | h
      · exact h
      · exfalso
        subst h
        have hteq : t1 = t2 := by
          rw [← hg1, ← hg2]
        rw [hteq] at hlt
        exact lt_irrefl _ hlt
      · exfalso
        have hle := List.pairwise_iff_get.mp hsorted ⟨j2, hj2⟩ ⟨j1, hj1⟩
          (Fin.mk_lt_mk.mpr h)
        rw [hg1, hg2] at hle
        exact absurd hlt (not_lt.mpr hle)
    have hS : (0 : Int) < SPACING := by norm_num [SPACING]
    refine mul_lt_mul_of_pos_right ?_ hS
    omega

/-- Witness for C4, the spec's Scenario D: positions `[5, 7, 4001]` are
rewritten to `[1000, 2000, 3000]` preserving relative order. -/
theorem rebalance_canonical_spacing_witness :
    IsSortedLoad [⟨1, 1, .todo, 5, 0⟩, ⟨2, 1, .todo, 7, 0⟩, ⟨3, 1, .todo, 4001, 0⟩]
      1 .todo [⟨1, 1, .todo, 5, 0⟩, ⟨2, 1, .todo, 7, 0⟩, ⟨3, 1, .todo, 4001, 0⟩]
    ∧ (partitionPositions (rebalanceApply
        [⟨1, 1, .todo, 5, 0⟩, ⟨2, 1, .todo, 7, 0⟩, ⟨3, 1, .todo, 4001, 0⟩]
        [⟨1, 1, .todo, 5, 0⟩, ⟨2, 1, .todo, 7, 0⟩, ⟨3, 1, .todo, 4001, 0⟩]) 1 .todo).Perm
        (canonicalFrom 1 (partitionOf
          [⟨1, 1, .todo, 5, 0⟩, ⟨2, 1, .todo, 7, 0⟩, ⟨3, 1, .todo, 4001, 0⟩] 1 .todo).length)
    ∧ partitionPositions (rebalanceApply
        [⟨1, 1, .todo, 5, 0⟩, ⟨2, 1, .todo, 7, 0⟩, ⟨3, 1, .todo, 4001, 0⟩]
        [⟨1, 1, .todo, 5, 0⟩, ⟨2, 1, .todo, 7, 0⟩, ⟨3, 1, .todo, 4001, 0⟩]) 1 .todo
        = [1000, 2000, 3000]
    ∧ posD (rebalanceApply
        [⟨1, 1, .todo, 5, 0⟩, ⟨2, 1, .todo, 7, 0⟩, ⟨3, 1, .todo, 4001, 0⟩]
        [⟨1, 1, .todo, 5, 0⟩, ⟨2, 1, .todo, 7, 0⟩, ⟨3, 1, .todo, 4001, 0⟩]) 1
      < posD (rebalanceApply
        [⟨1, 1, .todo, 5, 0⟩, ⟨2, 1, .todo, 7, 0⟩, ⟨3, 1, .todo, 4001, 0⟩]
        [⟨1, 1, .todo, 5, 0⟩, ⟨2, 1, .todo, 7, 0⟩, ⟨3, 1, .todo, 4001, 0⟩]) 3 := by
  refine ⟨by decide, ?_, by decide, ?_⟩
  · exact (rebalance_canonical_spacing _ 1 .todo _ (by decide) (by decide)).1
  · exact (rebalance_canonical_spacing _ 1 .todo _ (by decide) (by decide)).2
      ⟨1, 1, .todo, 5, 0⟩ (by decide) ⟨3, 1, .todo, 4001, 0⟩ (by decide) (by decide)

/-! ## C6: rebalance idempotence -/

/-- C6.  Rebalancing a partition twice in a row, with no intervening move
or allocation, leaves the store exactly as it was after the first
rebalance — the second pass loads the already-canonical positions
(strictly sorted, hence uniquely ordered) and rewrites each document
with its current position. -/
theorem rebalance_idempotent (db : Store) (u : UserId) (st : TaskStatus)
    (l1 l2 : List TaskRec)
    (hids : (db.map TaskRec.id).Nodup)
    (h1 : IsSortedLoad db u st l1)
    (h2 : IsSortedLoad (rebalanceApply db l1) u st l2) :
    rebalanceApply (rebalanceApply db l1) l2 = rebalanceApply db l1 := by
  obtain ⟨hp1, hs1⟩ := h1
  obtain ⟨hp2, hs2⟩ := h2
  have hpart_ids : ((partitionOf db u st).map TaskRec.id).Nodup := by
    have hsub : ((partitionOf db u st).map TaskRec.id).Sublist (db.map TaskRec.id) :=
      (List.filter_sublist db).map TaskRec.id
    exact List.Nodup.sublist hsub hids
  have hl1ids : (l1.map TaskRec.id).Nodup := ((hp1.map TaskRec.id).symm).nodup hpart_ids
  have hkeys1 : ((assignFrom 1 l1).map Prod.fst).Nodup := by
    rw [assignFrom_keys]
    exact hl1ids
  have hdb1 : rebalanceApply db l1 = db.map (applyFun (assignFrom 1 l1)) :=
    applyAssignments_eq_map (assignFrom 1 l1) hkeys1 db
  have hpart1 : partitionOf (rebalanceApply db l1) u st
      = (partitionOf db u st).map (applyFun (assignFrom 1 l1)) := by
    rw [hdb1]
    exact partition_map_of_preserves db u st _
      (fun x _ => ⟨(applyFun_fields _ x).2.1, (applyFun_fields _ x).2.2⟩)
  have hpartperm : (partitionOf (rebalanceApply db l1) u st).Perm (assignedList 1 l1) := by
    rw [hpart1, ← map_applyFun_assignFrom l1 hl1ids 1]
    exact (hp1.map _).symm
  have hl2perm : l2.Perm (assignedList 1 l1) := hp2.trans hpartperm
  have hassigned_nodup : ((assignedList 1 l1).map (fun t => t.orderIndex)).Nodup := by
    rw [assignedList_map_pos]
    exact (canonicalFrom_pairwise_lt _ 1).imp (fun h => ne_of_lt h)
  have hl2pos_nodup : (l2.map (fun t => t.orderIndex)).Nodup :=
    ((hl2perm.map _).symm).nodup hassigned_nodup
  have hl2strict : l2.Pairwise taskLT := by
    have hne := List.pairwise_map.mp hl2pos_nodup
    exact (hs2.and hne).imp fun h => lt_of_le_of_ne h.1 h.2
  have hl2eq : l2 = assignedList 1 l1 :=
    List.eq_of_perm_of_sorted hl2perm hl2strict (assignedList_pairwise_lt l1 1)
  have hAids : ((assignedList 1 l1).map TaskRec.id).Nodup := by
    rw [assignedList_ids]
    exact hl1ids
  have hkeys2 : ((assignFrom 1 (assignedList 1 l1)).map Prod.fst).Nodup := by
    rw [assignFrom_keys]
    exact hAids
  have hdb1_ids : ((rebalanceApply db l1).map TaskRec.id).Nodup := by
    rw [hdb1, List.map_map]
    have hfix : ∀ x ∈ db, (TaskRec.id ∘ applyFun (assignFrom 1 l1)) x = TaskRec.id x :=
      fun x _ => (applyFun_fields _ x).1
    rw [List.map_congr_left hfix]
    exact hids
  rw [hl2eq]
  show applyAssignments (rebalanceApply db l1) (assignFrom 1 (assignedList 1 l1)) = _
  rw [applyAssignments_eq_map _ hkeys2]
  have hpt : ∀ x ∈ rebalanceApply db l1,
      applyFun (assignFrom 1 (assignedList 1 l1)) x = id x := by
    intro x hx
    unfold applyFun
    rw [assignFrom_assignedList]
    cases hlk : ((assignedList 1 l1).map (fun t => (t.id, t.orderIndex))).lookup x.id with
    | none => rfl
    | some p =>
      obtain ⟨y, hy, hyi, hyp⟩ := lookup_selfPairs _ x.id p hlk
      have hy1 : y ∈ partitionOf (rebalanceApply db l1) u st := hpartperm.mem_iff.mpr hy
      have hy2 : y ∈ rebalanceApply db l1 := List.mem_of_mem_filter hy1
      have hxy : x = y := eq_of_mem_of_id_eq hdb1_ids hx hy2 hyi.symm
      show ({ x with orderIndex := p } : TaskRec) = x
      rw [hxy, ← hyp]
  rw [List.map_congr_left hpt, List.map_id]

/-- Witness for C6: rebalancing `[5, 7, 4001]` twice — the second pass
loading the canonical `[1000, 2000, 3000]` — changes nothing. -/
theorem rebalance_idempotent_witness :
    IsSortedLoad [⟨1, 1, .todo, 5, 0⟩, ⟨2, 1, .todo, 7, 0⟩, ⟨3, 1, .todo, 4001, 0⟩]
      1 .todo [⟨1, 1, .todo, 5, 0⟩, ⟨2, 1, .todo, 7, 0⟩, ⟨3, 1, .todo, 4001, 0⟩]
    ∧ IsSortedLoad (rebalanceApply
        [⟨1, 1, .todo, 5, 0⟩, ⟨2, 1, .todo, 7, 0⟩, ⟨3, 1, .todo, 4001, 0⟩]
        [⟨1, 1, .todo, 5, 0⟩, ⟨2, 1, .todo, 7, 0⟩, ⟨3, 1, .todo, 4001, 0⟩]) 1 .todo
        [⟨1, 1, .todo, 1000, 0⟩, ⟨2, 1, .todo, 2000, 0⟩, ⟨3, 1, .todo, 3000, 0⟩]
    ∧ rebalanceApply (rebalanceApply
        [⟨1, 1, .todo, 5, 0⟩, ⟨2, 1, .todo, 7, 0⟩, ⟨3, 1, .todo, 4001, 0⟩]
        [⟨1, 1, .todo, 5, 0⟩, ⟨2, 1, .todo, 7, 0⟩, ⟨3, 1, .todo, 4001, 0⟩])
        [⟨1, 1, .todo, 1000, 0⟩, ⟨2, 1, .todo, 2000, 0⟩, ⟨3, 1, .todo, 3000, 0⟩]
      = rebalanceApply
        [⟨1, 1, .todo, 5, 0⟩, ⟨2, 1, .todo, 7, 0⟩, ⟨3, 1, .todo, 4001, 0⟩]
        [⟨1, 1, .todo, 5, 0⟩, ⟨2, 1, .todo, 7, 0⟩, ⟨3, 1, .todo, 4001, 0⟩] :=
  ⟨by decide, by decide,
    rebalance_idempotent _ 1 .todo _ _ (by decide) (by decide) (by decide)⟩

/-! ## C9: deterministic tie-breaking (corrected)

The claim states that the rebalancer loads the partition ordered by
position with ties broken by a stable secondary key (creation time).
`rebalanceTaskOrder` sorts by `{orderIndex: 1}` alone — no secondary key
appears in its query (only `getTasks` adds `createdAt` as a secondary
sort).  MongoDB leaves the relative order of equal keys unspecified, so
with tied positions two runs on equal states may assign different
canonical positions to the same item.  Determinism does hold whenever
the partition's positions are pairwise distinct. -/

/-- Counterexample to C9 as stated: two items share position `5` (their
`createdAt` keys differ); both load orders satisfy the rebalancer's
single-key sort, and they assign item `1` the positions `1000` and
`2000` respectively — the outcome is not a function of the partition's
contents. -/
theorem rebalance_tie_not_deterministic :
    IsSortedLoad [⟨1, 1, .todo, 5, 10⟩, ⟨2, 1, .todo, 5, 20⟩] 1 .todo
      [⟨1, 1, .todo, 5, 10⟩, ⟨2, 1, .todo, 5, 20⟩]
    ∧ IsSortedLoad [⟨1, 1, .todo, 5, 10⟩, ⟨2, 1, .todo, 5, 20⟩] 1 .todo
      [⟨2, 1, .todo, 5, 20⟩, ⟨1, 1, .todo, 5, 10⟩]
    ∧ posD (rebalanceApply [⟨1, 1, .todo, 5, 10⟩, ⟨2, 1, .todo, 5, 20⟩]
        [⟨1, 1, .todo, 5, 10⟩, ⟨2, 1, .todo, 5, 20⟩]) 1 = 1000
    ∧ posD (rebalanceApply [⟨1, 1, .todo, 5, 10⟩, ⟨2, 1, .todo, 5, 20⟩]
        [⟨2, 1, .todo, 5, 20⟩, ⟨1, 1, .todo, 5, 10⟩]) 1 = 2000
    ∧ rebalanceApply [⟨1, 1, .todo, 5, 10⟩, ⟨2, 1, .todo, 5, 20⟩]
        [⟨1, 1, .todo, 5, 10⟩, ⟨2, 1, .todo, 5, 20⟩]
      ≠ rebalanceApply [⟨1, 1, .todo, 5, 10⟩, ⟨2, 1, .todo, 5, 20⟩]
        [⟨2, 1, .todo, 5, 20⟩, ⟨1, 1, .todo, 5, 10⟩] := by
  refine ⟨by decide, by decide, by decide, by decide, by decide⟩

/-- C9 as amended.  The rebalancer loads the partition ordered by
position ascending with no secondary tie-break key; its assignment is a
deterministic function of the partition's contents whenever the
partition's positions are pairwise distinct — any two valid loads of
equal states produce equal stores. -/
theorem rebalance_deterministic_of_distinct (db : Store) (u : UserId)
    (st : TaskStatus) (l1 l2 : List TaskRec)
    (hnd : (partitionPositions db u st).Nodup)
    (h1 : IsSortedLoad db u st l1)
    (h2 : IsSortedLoad db u st l2) :
    rebalanceApply db l1 = rebalanceApply db l2 := by
  obtain ⟨hp1, hs1⟩ := h1
  obtain ⟨hp2, hs2⟩ := h2
  have hnd0 : ((partitionOf db u st).map (fun t => t.orderIndex)).Nodup := hnd
  have hnd1 : (l1.map (fun t => t.orderIndex)).Nodup :=
    ((hp1.map (fun t => t.orderIndex)).symm).nodup hnd0
  have hnd2 : (l2.map (fun t => t.orderIndex)).Nodup :=
    ((hp2.map (fun t => t.orderIndex)).symm).nodup hnd0
  have hstrict1 : l1.Pairwise taskLT :=
    ((hs1.and (List.pairwise_map.mp hnd1)).imp fun h => lt_of_le_of_ne h.1 h.2)
  have hstrict2 : l2.Pairwise taskLT :=
    ((hs2.and (List.pairwise_map.mp hnd2)).imp fun h => lt_of_le_of_ne h.1 h.2)
  have hl12 : l1 = l2 :=
    List.eq_of_perm_of_sorted (hp1.trans hp2.symm) hstrict1 hstrict2
  rw [hl12]

/-- Witness for C9 as amended: with distinct positions `[7, 5]`, the only
valid load is `[5, 7]` and the two runs agree. -/
theorem rebalance_deterministic_of_distinct_witness :
    (partitionPositions [⟨1, 1, .todo, 7, 0⟩, ⟨2, 1, .todo, 5, 0⟩] 1 .todo).Nodup
    ∧ IsSortedLoad [⟨1, 1, .todo, 7, 0⟩, ⟨2, 1, .todo, 5, 0⟩] 1 .todo
      [⟨2, 1, .todo, 5, 0⟩, ⟨1, 1, .todo, 7, 0⟩]
    ∧ rebalanceApply [⟨1, 1, .todo, 7, 0⟩, ⟨2, 1, .todo, 5, 0⟩]
        [⟨2, 1, .todo, 5, 0⟩, ⟨1, 1, .todo, 7, 0⟩]
      = rebalanceApply [⟨1, 1, .todo, 7, 0⟩, ⟨2, 1, .todo, 5, 0⟩]
        [⟨2, 1, .todo, 5, 0⟩, ⟨1, 1, .todo, 7, 0⟩] :=
  ⟨by decide, by decide,
    rebalance_deterministic_of_distinct _ 1 .todo _ _
      (by decide) (by decide) (by decide)⟩

end Nexell
